import Mathlib

/-!
# Verification of the tar-diff delta-analysis engine (analysis.go)

Shallow embedding of `analysis.go` from alexlarsson/tar-diff.

Conventions of the embedding:
* Go `int64` sizes and offsets are modelled as `Nat` (tar entry sizes are
  non-negative, and the scanner drops size-0 entries, so Go's truncating
  integer division and subtraction agree with `Nat` division/subtraction
  on every value that occurs).
* A gzip+tar input stream is modelled as a `TarStream`: the list of entries
  the tar reader yields, plus an optional read error hit after them
  (`readErr = none` models clean EOF).
* The SHA1 digest and the rollsum chunk list of an entry are produced by
  `crypto/sha1` and `rollsum.go`, which are outside the analyzed source;
  `analysis.go` treats both as opaque values, so they are modelled as fields
  of the entry (`sha1`, `blobs`), and likewise the first stream bytes used
  for ELF sniffing are the prefix of `content`.
* Pointer mutation of `SourceInfo` records (Go `*SourceInfo`) is modelled by
  indices into the source arena (a `List SourceInfo`) plus functional update,
  following the spec's own design note (§9) for reimplementation.
* `log.Fatalf` (process abort) is the `fatal` outcome, a returned `error` is
  the `err` outcome, and a nil-pointer dereference panic is also a `fatal`
  outcome; `ok` carries the result.
-/

/-- Result of a Go function that can return an error or abort the process. -/
inductive ScanResult (α : Type) where
  | ok : α → ScanResult α
  | err : String → ScanResult α
  | fatal : String → ScanResult α
deriving DecidableEq, Repr

/-- Chunk produced by the content-defined chunker.
Modelled from the spec (§3): `rollsum.go` is not part of the analyzed
source; a chunk is `{offset, size, digest}`. `analysis.go` only reads
`offset` and `size` in its validation loop. -/
structure RollsumBlob where
  offset : Nat
  size : Nat
  digest : String
deriving DecidableEq, Repr

/-- Modelled from the spec (§6/§3): the hard chunk-length cap `maxChunkSize`
(`maxBlobSize` in the code) is defined in `rollsum.go`, which is not part of
the analyzed source; the spec fixes no concrete value and no theorem below
depends on this one. -/
def maxBlobSize : Nat := 65536

/-- One file record of an archive inventory (struct `TarFileInfo`). -/
structure TarFileInfo where
  index : Nat
  basename : String
  path : String
  size : Nat
  sha1 : String
  isExecutable : Bool
  worldReadable : Bool
  blobs : List RollsumBlob
deriving DecidableEq, Repr

/-- An archive inventory (struct `TarInfo`): files sorted by size, no size-0 files. -/
structure TarInfo where
  files : List TarFileInfo
deriving DecidableEq, Repr

/-- Go `tar.TypeReg` ('0'). -/
def tarTypeReg : Nat := 48

/-- Go `tar.TypeGNUSparse` ('S'). -/
def tarTypeGNUSparse : Nat := 83

/-- One entry as yielded by the tar reader. `content` is the entry's byte
stream; `sha1` and `blobs` are the outputs of the (external) digest and
chunker run over that stream, carried as data since their code is outside
the analyzed source. -/
structure TarEntry where
  typeflag : Nat
  name : String
  size : Nat
  mode : Nat
  paxSparseMajor : String
  paxSparseMinor : String
  paxSparseMap : String
  content : List Nat
  blobs : List RollsumBlob
  sha1 : String
deriving DecidableEq, Repr

/-- A gzip+tar input stream: the entries the tar reader yields, and an
optional read/format error encountered after them (none = clean EOF). -/
structure TarStream where
  entries : List TarEntry
  readErr : Option String
deriving DecidableEq, Repr

/-- Go `isSparseFile`. -/
def isSparseFile (hdr : TarEntry) : Bool :=
  if hdr.typeflag == tarTypeGNUSparse then true
  else if hdr.typeflag == tarTypeReg &&
      (hdr.paxSparseMajor != "" || hdr.paxSparseMinor != "" || hdr.paxSparseMap != "") then true
  else false

/-- Go `useTarHeader`: only regular, non-empty, non-sparse entries. -/
def useTarHeader (hdr : TarEntry) : Bool :=
  if hdr.typeflag != tarTypeReg then false
  else if hdr.size == 0 then false
  else if isSparseFile hdr then false
  else true

/-- Go `path.Base`. -/
def pathBase (p : String) : String :=
  if p = "" then (".")
  else
    let trimmed := p.data.reverse.dropWhile (fun c => c == '/')
    if trimmed = [] then ("/")
    else ⟨(trimmed.takeWhile (fun c => !(c == '/'))).reverse⟩

/-- Embedding of Go `strings.HasPrefix` on explicit character lists. -/
def strHasPre : List Char → List Char → Bool
  | [], _ => true
  | _ :: _, [] => false
  | c :: pre, d :: s => c == d && strHasPre pre s

/-- The ELF-magic sniff in `analyzeTar`: `len(header) > 4 && header[0] == 0x7f
&& header[1] == 'E' && header[2] == 'L' && header[3] == 'F'`, where `header`
is the first bytes of the entry stream. -/
def isELFHeader : List Nat → Bool
  | b0 :: b1 :: b2 :: b3 :: _ :: _ =>
      b0 == 0x7f && b1 == 69 && b2 == 76 && b3 == 70
  | _ => false

/-- The internal self-validation loop of `analyzeTar` (lines 133–147):
walks the blob list carrying `last`, aborting (`false` = some `log.Fatalf`
fires) on a non-contiguous start, an oversized blob, or a final end that
differs from the entry size. -/
def validateBlobs : List RollsumBlob → Nat → Nat → Bool
  | [], last, size => last == size
  | b :: rest, last, size =>
    if b.offset != last then false
    else if b.size > maxBlobSize then false
    else validateBlobs rest (b.offset + b.size) size

/-- The `TarFileInfo` built for one eligible entry in `analyzeTar`. -/
def mkTarFileInfo (index : Nat) (e : TarEntry) : TarFileInfo :=
  { index := index
    basename := pathBase e.name
    path := e.name
    size := e.size
    sha1 := e.sha1
    isExecutable := isELFHeader e.content
    worldReadable := (e.mode &&& 4) != 0
    blobs := e.blobs }

/-- The entry loop of `analyzeTar`: filters with `useTarHeader`, validates
each eligible entry's blobs (fatal on violation), and collects the records
in stream order, numbering every entry (eligible or not). -/
def scanEntries (index : Nat) : List TarEntry → ScanResult (List TarFileInfo)
  | [] => .ok []
  | e :: rest =>
    if useTarHeader e then
      if validateBlobs e.blobs 0 e.size then
        match scanEntries (index + 1) rest with
        | .ok fs => .ok (mkTarFileInfo index e :: fs)
        | .err m => .err m
        | .fatal m => .fatal m
      else .fatal ("Internal error: blob invariant violated")
    else scanEntries (index + 1) rest

/-- Ascending-by-size insertion used to model `sort.Slice(files, size <)`. -/
def insertBySize (f : TarFileInfo) : List TarFileInfo → List TarFileInfo
  | [] => [f]
  | g :: rest => if f.size < g.size then f :: g :: rest else g :: insertBySize f rest

/-- Models the Go sort.Slice call of analyzeTar: sorts the scanned records
ascending by size. -/
def sortBySize : List TarFileInfo → List TarFileInfo
  | [] => []
  | f :: rest => insertBySize f (sortBySize rest)

/-- Go `analyzeTar`: scan the stream into an inventory sorted by size.
A read error of the stream aborts with an error; a blob-invariant violation
aborts fatally. -/
def analyzeTar (stream : TarStream) : ScanResult TarInfo :=
  match scanEntries 0 stream.entries with
  | .fatal m => .fatal m
  | .err m => .err m
  | .ok files =>
    match stream.readErr with
    | some m => .err m
    | none => .ok ⟨sortBySize files⟩

/-! ## Source selection (`analyzeForDelta`, selection phase) -/

/-- Constant similarityPercentThreshold = 30. -/
def similarityPercentThreshold : Nat := 30

/-- Per-source mutable record (struct `SourceInfo`): the wrapped file plus
`usedForDelta` (the spec's `consumedForPartialReuse`) and the scratch-store
`offset`. -/
structure SourceInfo where
  file : TarFileInfo
  usedForDelta : Bool
  offset : Nat
deriving DecidableEq, Repr

/-- Result of the (external, `rollsum.go`) Block Matcher.
Modelled from the spec (§4.4): `ComputeRollsumMatches` is not part of the
analyzed source; its result is modelled abstractly as the pair of chunk
lists it was invoked on, which is all `analysis.go` itself depends on. -/
structure RollsumMatches where
  sourceBlobs : List RollsumBlob
  targetBlobs : List RollsumBlob
deriving DecidableEq, Repr

/-- See `RollsumMatches`. -/
def ComputeRollsumMatches (s t : List RollsumBlob) : RollsumMatches := ⟨s, t⟩

/-- Per-target match record (struct `TargetInfo`). The source reference is
an index into the source arena (spec §9: model back-references as an index
into the arena rather than a pointer). -/
structure TargetInfo where
  file : TarFileInfo
  source : Option Nat
  rollsumMatches : Option RollsumMatches
deriving DecidableEq, Repr

/-- Index of the last element of `l` satisfying `p`.  This is the lookup of
a Go map built by iterating the arena in order and overwriting on duplicate
keys (`sourceBySha1`, `sourceByPath`). -/
def findLastIdx (p : α → Bool) : List α → Option Nat
  | [] => none
  | x :: xs =>
    match findLastIdx p xs with
    | some i => some (i + 1)
    | none => if p x then some 0 else none

/-- Go `isDeltaCandidate`: world-readable and the basename does not start
with a reserved compressed-format string. -/
def isDeltaCandidate (file : TarFileInfo) : Bool :=
  if !file.worldReadable then false
  else if strHasPre (".xz".data) file.basename.data || strHasPre (".bz2".data) file.basename.data then
    false
  else true

/-- Embedding of Go strings.SplitAfterN(s, ".", 2)[0]: the prefix of `s`
up to and including the first '.', or all of `s` when it has none. -/
def splitAfterFirstDot : List Char → List Char
  | [] => []
  | c :: rest => if c == '.' then [c] else c :: splitAfterFirstDot rest

/-- Go `nameIsSimilar`: pass 0 compares whole basenames, pass 1 compares
`SplitAfterN(basename, ".", 2)[0]`. -/
def nameIsSimilar (a b : TarFileInfo) (fuzzy : Nat) : Bool :=
  if fuzzy == 0 then a.basename == b.basename
  else splitAfterFirstDot a.basename.data == splitAfterFirstDot b.basename.data

/-- Computes minSize = file.size - file.size*similarityPercentThreshold/100. -/
def minSizeFor (file : TarFileInfo) : Nat :=
  file.size - file.size * similarityPercentThreshold / 100

/-- Computes maxSize = file.size + file.size*similarityPercentThreshold/100. -/
def maxSizeFor (file : TarFileInfo) : Nat :=
  file.size + file.size * similarityPercentThreshold / 100

/-- The exact content match step: `sourceBySha1[file.sha1]`, accepted when
the looked-up record has the same size and is world-readable. -/
def exactMatchSource (sources : List SourceInfo) (file : TarFileInfo) : Option Nat :=
  match findLastIdx (fun s => s.file.sha1 == file.sha1) sources with
  | none => none
  | some i =>
    match sources.get? i with
    | none => none
    | some s =>
      if file.size == s.file.size && s.file.worldReadable then some i else none

/-- The exact-pathname step: `sourceByPath[file.path]`, accepted when the
record is a delta candidate whose size satisfies `minSize ≤ size < maxSize`
(note the strict upper bound in the code). -/
def pathMatchSource (sources : List SourceInfo) (file : TarFileInfo)
    (minSize maxSize : Nat) : Option Nat :=
  match findLastIdx (fun s => s.file.path == file.path) sources with
  | none => none
  | some i =>
    match sources.get? i with
    | none => none
    | some s =>
      if isDeltaCandidate s.file = true ∧ minSize ≤ s.file.size ∧ s.file.size < maxSize
      then some i else none

/-- One pass of the fuzzy scan (`for j := lower; j < upper; j++ { ... }`),
walking the suffix of the arena that starts at index `j`, threading the
shared `lower` bound: a non-candidate is skipped, a candidate below the
window is skipped advancing `lower`, a candidate above the window stops the
pass (the arena is size-sorted), and the first name-similar candidate in
the window is returned. -/
def fuzzyScanAux (file : TarFileInfo) (minSize maxSize : Nat) (fuzzy : Nat) :
    List SourceInfo → Nat → Nat → Option Nat × Nat
  | [], _, lower => (none, lower)
  | s :: rest, j, lower =>
    if !isDeltaCandidate s.file then fuzzyScanAux file minSize maxSize fuzzy rest (j + 1) lower
    else if s.file.size < minSize then
      fuzzyScanAux file minSize maxSize fuzzy rest (j + 1) (lower + 1)
    else if s.file.size > maxSize then (none, lower)
    else if !nameIsSimilar file s.file fuzzy then
      fuzzyScanAux file minSize maxSize fuzzy rest (j + 1) lower
    else (some j, lower)

/-- The two-pass fuzzy scan of `analyzeForDelta`
(`for fuzzy := 0; fuzzy < 2 && source == nil; fuzzy++`): pass 0 starts at
index 0, pass 1 resumes from the `lower` bound pass 0 ended with.  Returns
the selected arena index together with the fuzziness level that found it. -/
def twoPassScan (sources : List SourceInfo) (file : TarFileInfo)
    (minSize maxSize : Nat) : Option (Nat × Nat) :=
  match fuzzyScanAux file minSize maxSize 0 sources 0 0 with
  | (some i, _) => some (i, 0)
  | (none, l1) =>
    match fuzzyScanAux file minSize maxSize 1 (sources.drop l1) l1 l1 with
    | (some i, _) => some (i, 1)
    | (none, _) => none

/-- The naive form of the same two-pass scan in which each pass starts from
index 0 (stated by the spec as the reference behavior of the `lower`-bound
optimization). -/
def twoPassScanNaive (sources : List SourceInfo) (file : TarFileInfo)
    (minSize maxSize : Nat) : Option (Nat × Nat) :=
  match fuzzyScanAux file minSize maxSize 0 sources 0 0 with
  | (some i, _) => some (i, 0)
  | (none, _) =>
    match fuzzyScanAux file minSize maxSize 1 sources 0 0 with
    | (some i, _) => some (i, 1)
    | (none, _) => none

/-- The per-target selection logic of `analyzeForDelta` (lines 253–304):
exact sha1 match first; otherwise, for delta-candidate targets, the
exact-path step and then the two-pass fuzzy scan.  Returns the selected
arena index and the value assigned to `usedForDelta`. -/
def processTarget (sources : List SourceInfo) (file : TarFileInfo) : Option Nat × Bool :=
  match exactMatchSource sources file with
  | some i => (some i, false)
  | none =>
    if isDeltaCandidate file then
      match pathMatchSource sources file (minSizeFor file) (maxSizeFor file) with
      | some i => (some i, true)
      | none =>
        match twoPassScan sources file (minSizeFor file) (maxSizeFor file) with
        | some (j, _) => (some j, true)
        | none => (none, false)
    else (none, false)

/-- Overwrite the `usedForDelta` flag of the arena record at index `i`
(`source.usedForDelta = usedForDelta` through the arena). -/
def setUsedAt : List SourceInfo → Nat → Bool → List SourceInfo
  | [], _, _ => []
  | s :: rest, 0, u => { s with usedForDelta := u } :: rest
  | s :: rest, Nat.succ n, u => s :: setUsedAt rest n u

/-- One iteration of the target loop (lines 251–316): select a source,
assign its `usedForDelta` flag, and build the `TargetInfo`
(`rollsumMatches` is computed only when `usedForDelta` is set). -/
def selectStep (sources : List SourceInfo) (file : TarFileInfo) :
    List SourceInfo × TargetInfo :=
  match processTarget sources file with
  | (some i, u) =>
    let rm : Option RollsumMatches :=
      if u then (sources.get? i).map (fun s => ComputeRollsumMatches s.file.blobs file.blobs)
      else none
    (setUsedAt sources i u, ⟨file, some i, rm⟩)
  | (none, _) => (sources, ⟨file, none, none⟩)

/-- The whole target loop of `analyzeForDelta`, threading the source arena. -/
def selectLoop : List SourceInfo → List TarFileInfo → List SourceInfo × List TargetInfo
  | sources, [] => (sources, [])
  | sources, f :: rest =>
    let st := selectStep sources f
    let lt := selectLoop st.1 rest
    (lt.1, st.2 :: lt.2)

/-! ## Spooling (`extractDeltaData`) and the aggregate result -/

/-- Overwrite the `offset` field of the arena record at index `i`
(`info.offset = offset` through the arena). -/
def setOffsetAt : List SourceInfo → Nat → Nat → List SourceInfo
  | [], _, _ => []
  | s :: rest, 0, v => { s with offset := v } :: rest
  | s :: rest, Nat.succ n, v => s :: setOffsetAt rest n v

/-- Lookup of sourceByPath at a name: the record the by-path map yields. -/
def sourceForName (sources : List SourceInfo) (name : String) : Option SourceInfo :=
  match findLastIdx (fun s => s.file.path == name) sources with
  | none => none
  | some i => sources.get? i

/-- Whether an entry of the old stream is spooled by `extractDeltaData`:
it passes `useTarHeader` and the record `sourceByPath` yields for its name
has `usedForDelta` set. -/
def consumedEntry (sources : List SourceInfo) (e : TarEntry) : Bool :=
  useTarHeader e &&
    match sourceForName sources e.name with
    | some s => s.usedForDelta
    | none => false

/-- Total size of the entries of a stream prefix that `extractDeltaData`
spools. -/
def consumedSizeSum (sources : List SourceInfo) : List TarEntry → Nat
  | [] => 0
  | e :: rest =>
    (if consumedEntry sources e then e.size else 0) + consumedSizeSum sources rest

/-- The entry loop of `extractDeltaData` (lines 211–231): for every entry
passing `useTarHeader`, look up its record in `sourceByPath` (a missing
record is the Go nil-pointer dereference, modelled as `none`); when the
record is consumed, record the running `offset` into it and append the
entry's bytes to the scratch output. -/
def extractLoop :
    List SourceInfo → List TarEntry → Nat → Option (List SourceInfo × List Nat)
  | sources, [], _ => some (sources, [])
  | sources, e :: rest, offset =>
    if useTarHeader e then
      match findLastIdx (fun s => s.file.path == e.name) sources with
      | none => none
      | some i =>
        match sources.get? i with
        | none => none
        | some s =>
          if s.usedForDelta then
            match extractLoop (setOffsetAt sources i offset) rest (offset + e.size) with
            | none => none
            | some (sf, out) => some (sf, e.content ++ out)
          else extractLoop sources rest offset
    else extractLoop sources rest offset

/-- Go `extractDeltaData`: run the entry loop over the old stream; a
dangling by-path lookup is a panic (fatal), a stream read error is returned
as an error. -/
def extractDeltaData (stream : TarStream) (sources : List SourceInfo) :
    ScanResult (List SourceInfo × List Nat) :=
  match extractLoop sources stream.entries 0 with
  | none => .fatal ("nil pointer dereference")
  | some (sf, out) =>
    match stream.readErr with
    | some m => .err m
    | none => .ok (sf, out)

/-- Aggregate analysis result (struct `DeltaAnalysis`).  `sourceData` holds
the bytes spooled into the scratch file; `targetInfoByIndex` models the Go
map built from `file.index` (later duplicates overwrite ≙ lookup-last). -/
structure DeltaAnalysis where
  targetInfos : List TargetInfo
  sourceInfos : List SourceInfo
  sourceData : List Nat
  targetInfoByIndex : List (Nat × TargetInfo)
deriving DecidableEq, Repr

/-- The filesystem state of the scratch file backing `DeltaAnalysis`:
never created, created but neither closed nor removed (leaked), owned by a
returned `DeltaAnalysis`, or closed-and-removed. -/
inductive ScratchState where
  | notCreated
  | leaked
  | owned
  | removed
deriving DecidableEq, Repr

/-- Go `(*DeltaAnalysis).Close`: closes the scratch file and removes its
backing storage. -/
def DeltaAnalysis.close (_ : DeltaAnalysis) (_ : ScratchState) : ScratchState :=
  .removed

/-- Go `analyzeForDelta`: build the source arena, run the selection loop
over the new inventory, create the scratch file (`tmpOk` models whether
`ioutil.TempFile` succeeds), spool with `extractDeltaData`, and return the
aggregate.  The second component is the resulting state of the scratch
file: on the error paths after creation the Go code returns without closing
or removing the temp file, which leaves it `leaked`. -/
def analyzeForDelta (old new : TarInfo) (oldFile : TarStream) (tmpOk : Bool) :
    ScanResult DeltaAnalysis × ScratchState :=
  let sources0 := old.files.map (fun f => SourceInfo.mk f false 0)
  let sel := selectLoop sources0 new.files
  if tmpOk then
    match extractDeltaData oldFile sel.1 with
    | .ok (sf, out) =>
      (.ok ⟨sel.2, sf, out, sel.2.map (fun t => (t.file.index, t))⟩, .owned)
    | .err m => (.err m, .leaked)
    | .fatal m => (.fatal m, .leaked)
  else (.err ("cannot create temporary file"), .notCreated)

/-! ## Spec-side predicates -/

/-- Spec §3 chunk invariant, stated from the spec's words: starting from
`start`, each chunk begins where the previous one ended, each chunk size is
at most `maxBlobSize`, and the last chunk ends at `n`.  With `start = 0`
this is "contiguous, gap-free, covers exactly [0, N)". -/
def chunkSeqCovers : Nat → List RollsumBlob → Nat → Prop
  | start, [], n => start = n
  | start, b :: rest, n =>
    b.offset = start ∧ b.size ≤ maxBlobSize ∧ chunkSeqCovers (b.offset + b.size) rest n

/-- Spec-side form of the pass-1 stem that the code actually compares: the
prefix of a name up to and including its first '.' (the whole name when it
has no dot), written independently of `splitAfterFirstDot`. -/
def stemIncludingDot (l : List Char) : List Char :=
  l.take (l.findIdx (fun c => c == '.') + 1)

/-! ## Concrete fixtures used by counterexamples and witnesses -/

/-- Build a file record the way the scanner does, with a single covering
chunk and the given identity data. -/
def mkFile (index : Nat) (p : String) (size : Nat) (sha1 : String) (wr : Bool) : TarFileInfo :=
  { index := index
    basename := pathBase p
    path := p
    size := size
    sha1 := sha1
    isExecutable := false
    worldReadable := wr
    blobs := [⟨0, size, "bd"⟩] }

/-- Build a regular, non-sparse, world-readable stream entry. -/
def mkEntry (name : String) (content : List Nat) : TarEntry :=
  { typeflag := tarTypeReg
    name := name
    size := content.length
    mode := 4
    paxSparseMajor := ""
    paxSparseMinor := ""
    paxSparseMap := ""
    content := content
    blobs := [⟨0, content.length, "bd"⟩]
    sha1 := "sh" }

/-- C1 fixture: the single old file, at path "a/f". -/
def c1S : TarFileInfo := mkFile 0 ("a/f") 100 ("s1") true

/-- C1 fixture: first new file, same path as `c1S`, different digest. -/
def c1T1 : TarFileInfo := mkFile 0 ("a/f") 100 ("t1") true

/-- C1 fixture: second new file, identical digest and size to `c1S`. -/
def c1T2 : TarFileInfo := mkFile 1 ("b/g") 100 ("s1") true

/-- C1 fixture: initial source arena. -/
def c1Sources : List SourceInfo := [⟨c1S, false, 0⟩]

/-- C3 fixture: a record whose basename is "foo". -/
def c3A : TarFileInfo := mkFile 0 ("foo") 5 ("ca") true

/-- C3 fixture: a record whose basename is "foo.tar". -/
def c3B : TarFileInfo := mkFile 1 ("foo.tar") 5 ("cb") true

/-- C4 fixture: an old file at a different path with the same basename as
the target, inside the size window. -/
def c4S2 : TarFileInfo := mkFile 0 ("other/foo") 100 ("cb") true

/-- C4 fixture: the old file at the target's path, size exactly
`maxSizeFor c4T` = 130. -/
def c4S1 : TarFileInfo := mkFile 1 ("dir/foo") 130 ("cc") true

/-- C4 fixture: the target, size 100 (window 70..130). -/
def c4T : TarFileInfo := mkFile 0 ("dir/foo") 100 ("ca") true

/-- C4 fixture: source arena sorted ascending by size. -/
def c4Sources : List SourceInfo := [⟨c4S2, false, 0⟩, ⟨c4S1, false, 0⟩]

/-- C5 fixture: world-readable old file whose basename starts with the
reserved ".xz" string. -/
def c5S : TarFileInfo := mkFile 0 (".xz") 5 ("x") true

/-- C5 fixture: new file with the same digest and size as `c5S`. -/
def c5T : TarFileInfo := mkFile 0 ("q") 5 ("x") true

/-- C6 fixture: world-readable old file with digest "x". -/
def c6S1 : TarFileInfo := mkFile 0 ("p1") 5 ("x") true

/-- C6 fixture: non-world-readable old file with the same digest "x" and
size, later in the inventory (so it shadows `c6S1` in `sourceBySha1`). -/
def c6S2 : TarFileInfo := mkFile 1 ("p2") 5 ("x") false

/-- C6 fixture: new file with digest "x" and size 5, unrelated name. -/
def c6T : TarFileInfo := mkFile 0 ("q") 5 ("x") true

/-- C7 fixture: arena with one consumed and one unconsumed record. -/
def c7Sources : List SourceInfo :=
  [⟨mkFile 0 ("a") 2 ("sa") true, true, 0⟩, ⟨mkFile 1 ("b") 3 ("sb") true, false, 0⟩]

/-- C7 fixture: old stream entries matching `c7Sources`. -/
def c7Entries : List TarEntry := [mkEntry ("a") [10, 11], mkEntry ("b") [20, 21, 22]]

/-- C8/C9 fixture: size-sorted source arena. -/
def c8Sources : List SourceInfo :=
  [⟨mkFile 0 ("w/g") 10 ("zz") true, false, 0⟩, ⟨mkFile 1 ("w/f") 100 ("zy") true, false, 0⟩]

/-- C8/C9 fixture: target of size 100 whose basename matches the second
arena record. -/
def c8T : TarFileInfo := mkFile 0 ("v/f") 100 ("yy") true

/-- C10 fixture: a valid single-entry stream. -/
def c10Stream : TarStream := ⟨[mkEntry ("out/data") [1, 2, 3]], none⟩

/-- C10 fixture: the inventory `analyzeTar` produces for `c10Stream`. -/
def c10Info : TarInfo := ⟨[mkTarFileInfo 0 (mkEntry ("out/data") [1, 2, 3])]⟩

/-- C4/C5 witness fixture: a target whose exact-path lookup in `c4Sources`
succeeds inside the half-open window. -/
def c45T : TarFileInfo := mkFile 0 ("other/foo") 100 ("ca") true

/-! # Theorems -/

/-- Claim C1 (code bug evidence): processing `c1T1` selects the old file
`c1S` for partial reuse and sets its `usedForDelta` flag; processing the
later target `c1T2`, an exact-identity match for the same source, executes
`source.usedForDelta = usedForDelta` with `usedForDelta = false` and resets
the flag — so the flag is not monotone over the selection pass, although
the first target's match still carries a block correspondence that needs
the source spooled. -/
theorem c1_flag_clobbered :
    (selectLoop c1Sources [c1T1]).1.map (fun s => s.usedForDelta) = [true] ∧
    (selectLoop c1Sources [c1T1, c1T2]).1.map (fun s => s.usedForDelta) = [false] ∧
    (selectLoop c1Sources [c1T1, c1T2]).2.map (fun t => (t.source, t.rollsumMatches.isSome)) =
      [(some 0, true), (some 0, false)] := by decide

/-- Claim C2 (code bug evidence): when spooling the old archive fails after
the scratch file was created, `analyzeForDelta` returns the error but
leaves the scratch file neither closed nor removed (state `leaked`, not
`removed` or `notCreated`) — the cleanup the claim requires never runs on
this path. -/
theorem c2_scratch_leaked :
    analyzeForDelta ⟨[]⟩ ⟨[]⟩ ⟨[], some ("read error")⟩ true =
      (ScanResult.err ("read error"), ScratchState.leaked) := by decide

/-- Claim C3 (counterexample): the basenames "foo" and "foo.tar" have equal
prefixes up to and excluding the first '.', yet the pass-1 similarity test
of the code rejects them, because `strings.SplitAfterN` keeps the '.'
separator in the compared stem. -/
theorem c3_counterexample :
    "foo".data.takeWhile (fun c => !(c == '.')) =
      "foo.tar".data.takeWhile (fun c => !(c == '.')) ∧
    c3A.basename = "foo" ∧ c3B.basename = "foo.tar" ∧
    nameIsSimilar c3A c3B 1 = false := by decide

/-- Claim C4 (counterexample): for the target `c4T` (size 100, window 70..130)
the old file `c4S1` sits at the same path, is a delta candidate, and its
size 130 equals the window's upper bound `maxSizeFor c4T` — every premise of
the claim — yet the path step rejects it (`size < maxSize` is strict) and
the fuzzy scan selects the different-path file `c4S2` (arena index 0)
instead of `c4S1` (arena index 1). -/
theorem c4_counterexample :
    c4S1.path = c4T.path ∧ isDeltaCandidate c4S1 = true ∧
    minSizeFor c4T ≤ c4S1.size ∧ c4S1.size = maxSizeFor c4T ∧
    exactMatchSource c4Sources c4T = none ∧ isDeltaCandidate c4T = true ∧
    c4Sources.get? 1 = some ⟨c4S1, false, 0⟩ ∧
    processTarget c4Sources c4T = (some 0, true) ∧
    c4S2.path ≠ c4T.path := by decide

/-- Claim C5 (counterexample): the world-readable old file `c5S`, whose
basename begins with the reserved ".xz" string, is selected as `c5T`'s
source through the exact content-digest step — the sha1 path checks only
world-readability, not the reserved-prefix exclusion. -/
theorem c5_counterexample :
    strHasPre (".xz".data) c5S.basename.data = true ∧
    c5S.worldReadable = true ∧ c5S.sha1 = c5T.sha1 ∧ c5S.size = c5T.size ∧
    processTarget [⟨c5S, false, 0⟩] c5T = (some 0, false) ∧
    (selectStep [⟨c5S, false, 0⟩] c5T).2.source = some 0 := by decide

/-- Claim C6 (counterexample): `c6S1` has identical digest, identical size,
and is world-readable, so the claim demands an exact-identity match for
`c6T`; but `sourceBySha1` keeps only the last record per digest, here the
non-world-readable `c6S2`, so the sha1 step fails and `c6T` ends up with no
source at all. -/
theorem c6_counterexample :
    c6S1.sha1 = c6T.sha1 ∧ c6S1.size = c6T.size ∧ c6S1.worldReadable = true ∧
    processTarget [⟨c6S1, false, 0⟩, ⟨c6S2, false, 0⟩] c6T = (none, false) ∧
    (selectStep [⟨c6S1, false, 0⟩, ⟨c6S2, false, 0⟩] c6T).2.source = none := by decide

/-- The function `splitAfterFirstDot` computes the prefix up to and
including the first '.' (the whole list when there is none), i.e. the
spec-side `stemIncludingDot`. -/
theorem splitAfterFirstDot_eq_stem (l : List Char) :
    splitAfterFirstDot l = stemIncludingDot l := by
  induction l with
  | nil => rfl
  | cons c rest ih =>
    by_cases h : c = '.'
    · simp [splitAfterFirstDot, stemIncludingDot, List.findIdx_cons, h]
    · have hb : (c == '.') = false := by simpa using h
      simp [splitAfterFirstDot, stemIncludingDot, List.findIdx_cons, hb, ih]

/-- Claim C3 (amended): the pass-1 (fuzzy) name-similarity test succeeds
exactly when the basenames have identical prefixes up to and **including**
the first '.' separator (the whole basename when it has no dot); in
particular "foo" is not pass-1 similar to "foo.tar". -/
theorem c3_amended (a b : TarFileInfo) :
    nameIsSimilar a b 1 = true ↔
      stemIncludingDot a.basename.data = stemIncludingDot b.basename.data := by
  simp [nameIsSimilar, splitAfterFirstDot_eq_stem]

/-- Claim C4 (amended): for a target with no exact identity match that is a
delta candidate, an old file at the same path that is a delta candidate and
whose size falls in the half-open window
`[T.size − 30%, T.size + 30%)` — lower bound included, upper bound
**excluded** — is selected immediately and marked `usedForDelta`; a
candidate whose size equals `T.size + T.size*30/100` is not selected by the
path step. -/
theorem c4_amended (sources : List SourceInfo) (file : TarFileInfo) (i : Nat) (s : SourceInfo)
    (hex : exactMatchSource sources file = none)
    (hc : isDeltaCandidate file = true)
    (hfind : findLastIdx (fun s => s.file.path == file.path) sources = some i)
    (hget : sources.get? i = some s)
    (hcand : isDeltaCandidate s.file = true)
    (hmin : minSizeFor file ≤ s.file.size)
    (hmax : s.file.size < maxSizeFor file) :
    processTarget sources file = (some i, true) := by
  have hpath : pathMatchSource sources file (minSizeFor file) (maxSizeFor file) = some i := by
    have hget2 : sources[i]? = some s := by simpa [List.get?_eq_getElem?] using hget
    unfold pathMatchSource
    simp [hfind, hget2, hcand, hmin, hmax]
  unfold processTarget
  rw [hex, hc]
  simp [hpath]

/-- Witness for `c4_amended` at a concrete input. -/
theorem c4_amended_witness : processTarget c4Sources c45T = (some 0, true) :=
  c4_amended c4Sources c45T 0 ⟨c4S2, false, 0⟩ (by decide) (by decide) (by decide)
    (by decide) (by decide) (by decide) (by decide)

/-- Claim C6 (amended): if the record the digest index yields for T's digest
(the **last** old file with that digest in inventory order) has identical
size and is world-readable, then T's match is the exact-identity kind: its
source is that record, its block correspondence is `none`, and the flag
written back is `false`, before any path or fuzzy matching is attempted. -/
theorem c6_amended (sources : List SourceInfo) (file : TarFileInfo) (i : Nat) (s : SourceInfo)
    (hfind : findLastIdx (fun s => s.file.sha1 == file.sha1) sources = some i)
    (hget : sources.get? i = some s)
    (hsize : s.file.size = file.size)
    (hwr : s.file.worldReadable = true) :
    selectStep sources file = (setUsedAt sources i false, ⟨file, some i, none⟩) := by
  have hex : exactMatchSource sources file = some i := by
    have hget2 : sources[i]? = some s := by simpa [List.get?_eq_getElem?] using hget
    unfold exactMatchSource
    simp [hfind, hget2, hsize, hwr]
  unfold selectStep processTarget
  rw [hex]
  simp

/-- Witness for `c6_amended` at a concrete input. -/
theorem c6_amended_witness :
    selectStep [⟨c6S1, false, 0⟩] c6T =
      (setUsedAt [⟨c6S1, false, 0⟩] 0 false, ⟨c6T, some 0, none⟩) :=
  c6_amended [⟨c6S1, false, 0⟩] c6T 0 ⟨c6S1, false, 0⟩ (by decide) (by decide)
    (by decide) (by decide)

/-- If one pass of the fuzzy scan returns an index, the scanned suffix
holds, at the matching position, a record that is a delta candidate, lies
inside the size window (both bounds included), and is name-similar at the
pass's fuzziness. -/
theorem fuzzyScanAux_some (file : TarFileInfo) (mn mx fz : Nat) :
    ∀ (rest : List SourceInfo) (j lower i l2),
      fuzzyScanAux file mn mx fz rest j lower = (some i, l2) →
      ∃ k s, rest.get? k = some s ∧ i = j + k ∧ isDeltaCandidate s.file = true ∧
        mn ≤ s.file.size ∧ s.file.size ≤ mx ∧ nameIsSimilar file s.file fz = true := by
  intro rest
  induction rest with
  | nil => intro j lower i l2 h; simp [fuzzyScanAux] at h
  | cons s rest ih =>
    intro j lower i l2 h
    unfold fuzzyScanAux at h
    split_ifs at h with h1 h2 h3 h4
    · obtain ⟨k, s', hg, hik, hrest⟩ := ih (j + 1) lower i l2 h
      exact ⟨k + 1, s', by simpa using hg, by omega, hrest⟩
    · obtain ⟨k, s', hg, hik, hrest⟩ := ih (j + 1) (lower + 1) i l2 h
      exact ⟨k + 1, s', by simpa using hg, by omega, hrest⟩
    · simp at h
    · obtain ⟨k, s', hg, hik, hrest⟩ := ih (j + 1) lower i l2 h
      exact ⟨k + 1, s', by simpa using hg, by omega, hrest⟩
    · obtain ⟨hi, -⟩ := Prod.mk.injEq .. ▸ h
      refine ⟨0, s, rfl, by simpa using hi.symm, ?_, ?_, ?_, ?_⟩
      · simpa using h1
      · omega
      · omega
      · simpa using h4

/-- If the two-pass scan selects an index, the arena record there is a
delta candidate inside the size window and name-similar at the selected
fuzziness level. -/
theorem twoPassScan_some (sources : List SourceInfo) (file : TarFileInfo) (mn mx i fz : Nat)
    (h : twoPassScan sources file mn mx = some (i, fz)) :
    ∃ s, sources.get? i = some s ∧ isDeltaCandidate s.file = true ∧
      mn ≤ s.file.size ∧ s.file.size ≤ mx ∧ nameIsSimilar file s.file fz = true := by
  unfold twoPassScan at h
  split at h
  case _ i0 l1 heq =>
    simp at h
    obtain ⟨hi, hf⟩ := h
    obtain ⟨k, s, hg, hik, hrest⟩ := fuzzyScanAux_some file mn mx 0 sources 0 0 i0 l1 heq
    subst hi
    subst hf
    refine ⟨s, ?_, hrest⟩
    simpa [hik] using hg
  case _ l1 heq =>
    split at h
    case _ i1 l2 heq1 =>
      simp at h
      obtain ⟨hi, hf⟩ := h
      obtain ⟨k, s, hg, hik, hrest⟩ :=
        fuzzyScanAux_some file mn mx 1 (sources.drop l1) l1 l1 i1 l2 heq1
      subst hi
      subst hf
      refine ⟨s, ?_, hrest⟩
      rw [hik, ← List.get?_drop]
      exact hg
    case _ => simp at h

/-- A delta candidate is world-readable (first check of `isDeltaCandidate`). -/
theorem worldReadable_of_isDeltaCandidate {f : TarFileInfo}
    (h : isDeltaCandidate f = true) : f.worldReadable = true := by
  unfold isDeltaCandidate at h
  cases hw : f.worldReadable with
  | false => rw [hw] at h; simp at h
  | true => rfl

/-- The exact content-digest step only succeeds on a record with the
target's size that is world-readable. -/
theorem exactMatchSource_some (sources : List SourceInfo) (file : TarFileInfo) (i : Nat)
    (h : exactMatchSource sources file = some i) :
    ∃ s, sources.get? i = some s ∧ s.file.worldReadable = true ∧ s.file.size = file.size := by
  unfold exactMatchSource at h
  split at h
  case _ => simp at h
  case _ i0 hf =>
    split at h
    case _ => simp at h
    case _ s hg =>
      split at h
      case isTrue hc =>
        obtain rfl : i0 = i := by simpa using h
        simp only [Bool.and_eq_true, beq_iff_eq] at hc
        exact ⟨s, hg, hc.2, hc.1.symm⟩
      case isFalse => simp at h

/-- The exact-path step only succeeds on a delta-candidate record whose
size lies in the half-open window. -/
theorem pathMatchSource_some (sources : List SourceInfo) (file : TarFileInfo)
    (mn mx i : Nat) (h : pathMatchSource sources file mn mx = some i) :
    ∃ s, sources.get? i = some s ∧ isDeltaCandidate s.file = true ∧
      mn ≤ s.file.size ∧ s.file.size < mx := by
  unfold pathMatchSource at h
  split at h
  case _ => simp at h
  case _ i0 hf =>
    split at h
    case _ => simp at h
    case _ s hg =>
      split at h
      case isTrue hc =>
        obtain rfl : i0 = i := by simpa using h
        exact ⟨s, hg, hc.1, hc.2.1, hc.2.2⟩
      case isFalse => simp at h

/-- Claim C5 (amended): an old file that is not world-readable is never
selected as a source through any step; a world-readable old file whose
basename begins with a reserved compressed-format string is never selected
for partial reuse (path or fuzzy step) — but it can still be chosen by the
exact content-digest step, which checks only world-readability; and a new
file that is not a delta candidate never requires a source (its
`usedForDelta` outcome is false, verbatim storage unless exactly
identity-matched). -/
theorem c5_amended (sources : List SourceInfo) (file : TarFileInfo) :
    (∀ i u s, processTarget sources file = (some i, u) → sources.get? i = some s →
      s.file.worldReadable = true ∧ (u = true → isDeltaCandidate s.file = true)) ∧
    (isDeltaCandidate file = false → (processTarget sources file).2 = false) := by
  constructor
  · intro i u s hpt hget
    unfold processTarget at hpt
    cases hex : exactMatchSource sources file with
    | some i0 =>
      rw [hex] at hpt
      simp at hpt
      obtain ⟨rfl, rfl⟩ := hpt
      obtain ⟨s', hg', hwr, -⟩ := exactMatchSource_some sources file _ hex
      rw [hget] at hg'
      obtain rfl : s = s' := by simpa using hg'
      exact ⟨hwr, by simp⟩
    | none =>
      rw [hex] at hpt
      by_cases hc : isDeltaCandidate file
      · rw [if_pos hc] at hpt
        cases hpm : pathMatchSource sources file (minSizeFor file) (maxSizeFor file) with
        | some i1 =>
          rw [hpm] at hpt
          simp at hpt
          obtain ⟨rfl, rfl⟩ := hpt
          obtain ⟨s', hg', hcand, -, -⟩ :=
            pathMatchSource_some sources file (minSizeFor file) (maxSizeFor file) _ hpm
          rw [hget] at hg'
          obtain rfl : s = s' := by simpa using hg'
          exact ⟨worldReadable_of_isDeltaCandidate hcand, fun _ => hcand⟩
        | none =>
          rw [hpm] at hpt
          cases hts : twoPassScan sources file (minSizeFor file) (maxSizeFor file) with
          | none => rw [hts] at hpt; simp at hpt
          | some p =>
            rw [hts] at hpt
            obtain ⟨j, fz⟩ := p
            simp at hpt
            obtain ⟨rfl, rfl⟩ := hpt
            obtain ⟨s', hg', hcand, -⟩ :=
              twoPassScan_some sources file (minSizeFor file) (maxSizeFor file) _ _ hts
            rw [hget] at hg'
            obtain rfl : s = s' := by simpa using hg'
            exact ⟨worldReadable_of_isDeltaCandidate hcand, fun _ => hcand⟩
      · rw [if_neg hc] at hpt; simp at hpt
  · intro hc
    unfold processTarget
    cases hex : exactMatchSource sources file with
    | some i0 => simp
    | none => simp [hc]

/-- Witness for `c5_amended` at a concrete input where a source is selected
for partial reuse. -/
theorem c5_amended_witness :
    (⟨c4S2, false, 0⟩ : SourceInfo).file.worldReadable = true ∧
      (true = true → isDeltaCandidate (⟨c4S2, false, 0⟩ : SourceInfo).file = true) :=
  (c5_amended c4Sources c45T).1 0 true ⟨c4S2, false, 0⟩ (by decide) (by decide)

/-- Claim C8 (confirmed): a source selected by the two-pass fuzzy scan for a
target always has size inside the window
`[T.size − 30%, T.size + 30%]` (integer truncation, both ends included),
at either fuzziness level. -/
theorem c8_size_window (sources : List SourceInfo) (file : TarFileInfo) (i fz : Nat)
    (s : SourceInfo)
    (h : twoPassScan sources file (minSizeFor file) (maxSizeFor file) = some (i, fz))
    (hget : sources.get? i = some s) :
    minSizeFor file ≤ s.file.size ∧ s.file.size ≤ maxSizeFor file := by
  obtain ⟨s', hg', -, hmn, hmx, -⟩ :=
    twoPassScan_some sources file (minSizeFor file) (maxSizeFor file) i fz h
  rw [hget] at hg'
  obtain rfl : s = s' := by simpa using hg'
  exact ⟨hmn, hmx⟩

/-- Witness for `c8_size_window` at a concrete input. -/
theorem c8_size_window_witness :
    minSizeFor c8T ≤ (⟨mkFile 1 ("w/f") 100 ("zy") true, false, 0⟩ : SourceInfo).file.size ∧
      (⟨mkFile 1 ("w/f") 100 ("zy") true, false, 0⟩ : SourceInfo).file.size ≤ maxSizeFor c8T :=
  c8_size_window c8Sources c8T 1 0 ⟨mkFile 1 ("w/f") 100 ("zy") true, false, 0⟩
    (by decide) (by decide)

/-- The selected index of one scan pass does not depend on the threaded
`lower` value (`lower` is bookkeeping for the next pass only). -/
theorem fuzzyScanAux_fst_lower (file : TarFileInfo) (mn mx fz : Nat) :
    ∀ (rest : List SourceInfo) (j l l2),
      (fuzzyScanAux file mn mx fz rest j l).1 = (fuzzyScanAux file mn mx fz rest j l2).1 := by
  intro rest
  induction rest with
  | nil => intro j l l2; rfl
  | cons s rest ih =>
    intro j l l2
    unfold fuzzyScanAux
    split_ifs <;> first | rfl | apply ih

/-- Scanning a list whose prefix consists only of below-window records
selects the same index as scanning the remainder with the start index
advanced past that prefix: every such record is skipped by the
non-candidate or the below-window branch. -/
theorem fuzzyScanAux_skip_below (file : TarFileInfo) (mn mx fz : Nat) :
    ∀ (pre rest : List SourceInfo) (j l),
      (∀ x ∈ pre, x.file.size < mn) →
      (fuzzyScanAux file mn mx fz (pre ++ rest) j l).1 =
        (fuzzyScanAux file mn mx fz rest (j + pre.length) l).1 := by
  intro pre
  induction pre with
  | nil => intro rest j l _; simp
  | cons x pre ih =>
    intro rest j l h
    have hx : x.file.size < mn := h x (by simp)
    have hrest : ∀ y ∈ pre, y.file.size < mn := fun y hy => h y (by simp [hy])
    have harith : (j + 1) + pre.length = j + (x :: pre).length := by
      simp [List.length_cons]
      omega
    by_cases hc : isDeltaCandidate x.file
    · have h1 : fuzzyScanAux file mn mx fz ((x :: pre) ++ rest) j l =
          fuzzyScanAux file mn mx fz (pre ++ rest) (j + 1) (l + 1) := by
        show fuzzyScanAux file mn mx fz (x :: (pre ++ rest)) j l = _
        simp only [fuzzyScanAux]
        simp [hc, hx]
      rw [h1, ih rest (j + 1) (l + 1) hrest, ← harith]
      exact fuzzyScanAux_fst_lower file mn mx fz rest ((j + 1) + pre.length) (l + 1) l
    · have hc2 : isDeltaCandidate x.file = false := by simpa using hc
      have h1 : fuzzyScanAux file mn mx fz ((x :: pre) ++ rest) j l =
          fuzzyScanAux file mn mx fz (pre ++ rest) (j + 1) l := by
        show fuzzyScanAux file mn mx fz (x :: (pre ++ rest)) j l = _
        simp only [fuzzyScanAux]
        simp [hc2]
      rw [h1, ih rest (j + 1) l hrest, ← harith]

/-- Index extraction for membership in a list prefix. -/
theorem mem_take_get? {α : Type} {l : List α} {x : α} {n : Nat} (h : x ∈ l.take n) :
    ∃ k, k < n ∧ l.get? k = some x := by
  obtain ⟨k, hk⟩ := List.mem_iff_get?.mp h
  have hkn : k < n := by
    by_contra hge
    rw [List.get?_eq_none.mpr ?_] at hk
    · exact Option.noConfusion hk
    · simp [List.length_take]
      omega
  exact ⟨k, hkn, by rw [← List.get?_take hkn]; exact hk⟩

/-- In a size-sorted arena, sizes are monotone in the index. -/
theorem pairwise_size_le {sources : List SourceInfo}
    (hsort : List.Pairwise (fun a b => a.file.size ≤ b.file.size) sources)
    {i j : Nat} {a b : SourceInfo} (hi : sources.get? i = some a)
    (hj : sources.get? j = some b) (hij : i ≤ j) : a.file.size ≤ b.file.size := by
  rcases Nat.lt_or_ge i j with hlt | hge
  · rw [List.get?_eq_some] at hi hj
    obtain ⟨hi1, hi2⟩ := hi
    obtain ⟨hj1, hj2⟩ := hj
    have := List.pairwise_iff_get.mp hsort ⟨i, hi1⟩ ⟨j, hj1⟩ hlt
    rw [hi2, hj2] at this
    exact this
  · obtain rfl : i = j := by omega
    rw [hi] at hj
    obtain rfl : a = b := by simpa using hj
    exact le_rfl

/-- Invariant of a scan pass on a size-sorted arena: on return, every
record before the final `lower` bound is strictly below the window's lower
edge, and the bound never exceeds the arena length. -/
theorem fuzzyScanAux_lower_inv (file : TarFileInfo) (mn mx fz : Nat)
    (sources : List SourceInfo)
    (hsort : List.Pairwise (fun a b => a.file.size ≤ b.file.size) sources) :
    ∀ (rest : List SourceInfo) (j lower r l2),
      fuzzyScanAux file mn mx fz rest j lower = (r, l2) →
      rest = sources.drop j →
      j + rest.length = sources.length →
      lower ≤ j →
      (∀ x ∈ sources.take lower, x.file.size < mn) →
      (∀ x ∈ sources.take l2, x.file.size < mn) ∧ l2 ≤ sources.length := by
  intro rest
  induction rest with
  | nil =>
    intro j lower r l2 h hdrop hlen hlj hbelow
    simp only [fuzzyScanAux] at h
    injection h with hr hl
    subst hr
    subst hl
    exact ⟨hbelow, by omega⟩
  | cons s rest ih =>
    intro j lower r l2 h hdrop hlen hlj hbelow
    have hget : sources.get? j = some s := by
      have hd := List.get?_drop sources j 0
      rw [← hdrop] at hd
      simpa using hd.symm
    have hdrop2 : rest = sources.drop (j + 1) := by
      have ht := List.tail_drop sources j
      rw [← hdrop] at ht
      simpa using ht
    have hlen2 : (j + 1) + rest.length = sources.length := by
      simp [List.length_cons] at hlen
      omega
    unfold fuzzyScanAux at h
    split_ifs at h with h1 h2 h3 h4
    · exact ih (j + 1) lower r l2 h hdrop2 hlen2 (by omega) hbelow
    · refine ih (j + 1) (lower + 1) r l2 h hdrop2 hlen2 (by omega) ?_
      intro x hx
      obtain ⟨k, hkn, hk⟩ := mem_take_get? hx
      have hxs : x.file.size ≤ s.file.size := pairwise_size_le hsort hk hget (by omega)
      omega
    · cases h
      exact ⟨hbelow, by omega⟩
    · exact ih (j + 1) lower r l2 h hdrop2 hlen2 (by omega) hbelow
    · cases h
      exact ⟨hbelow, by omega⟩

/-- Claim C9 (confirmed): on a size-sorted source inventory the two-pass
fuzzy scan that starts pass 1 from the shared `lower` bound carried over
from pass 0 selects exactly the same source, at the same fuzziness level,
as the naive version in which each pass starts from index 0. -/
theorem c9_lower_bound_equiv (sources : List SourceInfo) (file : TarFileInfo) (mn mx : Nat)
    (hsort : List.Pairwise (fun a b => a.file.size ≤ b.file.size) sources) :
    twoPassScan sources file mn mx = twoPassScanNaive sources file mn mx := by
  unfold twoPassScan twoPassScanNaive
  cases h0 : fuzzyScanAux file mn mx 0 sources 0 0 with
  | mk r0 l1 =>
    cases r0 with
    | some i0 => simp
    | none =>
      simp only []
      obtain ⟨hbelow, hl1⟩ :=
        fuzzyScanAux_lower_inv file mn mx 0 sources hsort sources 0 0 none l1 h0
          (List.drop_zero sources).symm (by simp) le_rfl (by simp)
      have hlength : (sources.take l1).length = l1 := by
        simp [List.length_take]
        omega
      have h2 : (fuzzyScanAux file mn mx 1 sources 0 0).1 =
          (fuzzyScanAux file mn mx 1 (sources.drop l1) (0 + (sources.take l1).length) 0).1 := by
        conv_lhs => rw [← List.take_append_drop l1 sources]
        exact fuzzyScanAux_skip_below file mn mx 1 (sources.take l1) (sources.drop l1) 0 0 hbelow
      rw [hlength] at h2
      simp only [Nat.zero_add] at h2
      have heq1 : (fuzzyScanAux file mn mx 1 (sources.drop l1) l1 l1).1 =
          (fuzzyScanAux file mn mx 1 sources 0 0).1 := by
        rw [h2]
        exact fuzzyScanAux_fst_lower file mn mx 1 (sources.drop l1) l1 l1 0
      cases hc : fuzzyScanAux file mn mx 1 (sources.drop l1) l1 l1 with
      | mk rc lc =>
        cases hn : fuzzyScanAux file mn mx 1 sources 0 0 with
        | mk rn ln =>
          rw [hc, hn] at heq1
          simp at heq1
          subst heq1
          cases rc <;> rfl

/-- Witness for `c9_lower_bound_equiv` at a concrete sorted input. -/
theorem c9_lower_bound_equiv_witness :
    twoPassScan c8Sources c8T (minSizeFor c8T) (maxSizeFor c8T) =
      twoPassScanNaive c8Sources c8T (minSizeFor c8T) (maxSizeFor c8T) :=
  c9_lower_bound_equiv c8Sources c8T (minSizeFor c8T) (maxSizeFor c8T) (by decide)

/-- The validation loop accepts a blob list exactly when it satisfies the
spec's chunk invariant relative to the running start position. -/
theorem validateBlobs_iff (l : List RollsumBlob) : ∀ (last n : Nat),
    validateBlobs l last n = true ↔ chunkSeqCovers last l n := by
  induction l with
  | nil => intro last n; simp [validateBlobs, chunkSeqCovers]
  | cons b rest ih =>
    intro last n
    by_cases h1 : b.offset = last
    · by_cases h2 : b.size ≤ maxBlobSize
      · have h2n : ¬ b.size > maxBlobSize := by omega
        simp [validateBlobs, chunkSeqCovers, h1, h2, h2n, ih]
      · have h2y : b.size > maxBlobSize := by omega
        simp [validateBlobs, chunkSeqCovers, h1, h2, h2y]
    · simp [validateBlobs, chunkSeqCovers, h1]

/-- Every record in a successful scan passed the blob validation. -/
theorem scanEntries_ok_valid : ∀ (es : List TarEntry) (idx : Nat) (files : List TarFileInfo),
    scanEntries idx es = .ok files →
    ∀ f ∈ files, validateBlobs f.blobs 0 f.size = true := by
  intro es
  induction es with
  | nil =>
    intro idx files h f hf
    simp only [scanEntries] at h
    cases h
    simp at hf
  | cons e rest ih =>
    intro idx files h f hf
    by_cases h1 : useTarHeader e = true
    · by_cases h2 : validateBlobs e.blobs 0 e.size = true
      · cases hs : scanEntries (idx + 1) rest with
        | ok fs =>
          simp [scanEntries, h1, h2, hs] at h
          subst h
          rcases List.mem_cons.mp hf with rfl | hmem
          · exact h2
          · exact ih (idx + 1) fs hs f hmem
        | err m => simp [scanEntries, h1, h2, hs] at h
        | fatal m => simp [scanEntries, h1, h2, hs] at h
      · simp [scanEntries, h1, h2] at h
    · have h' : scanEntries (idx + 1) rest = .ok files := by
        rw [← h]
        simp [scanEntries, h1]
      exact ih (idx + 1) files h' f hf

/-- Membership is preserved by the size-sorting insertion. -/
theorem mem_insertBySize {f g : TarFileInfo} : ∀ {l : List TarFileInfo},
    g ∈ insertBySize f l ↔ g = f ∨ g ∈ l := by
  intro l
  induction l with
  | nil => simp [insertBySize]
  | cons x rest ih =>
    simp only [insertBySize]
    split_ifs with hcmp
    · simp [List.mem_cons]
    · simp [List.mem_cons, ih]
      tauto

/-- Membership is preserved by the sort. -/
theorem mem_sortBySize {g : TarFileInfo} : ∀ {l : List TarFileInfo},
    g ∈ sortBySize l ↔ g ∈ l := by
  intro l
  induction l with
  | nil => simp [sortBySize]
  | cons x rest ih =>
    simp only [sortBySize, mem_insertBySize, ih, List.mem_cons]

/-- A blob-invariant violation on any eligible entry makes the scan abort
fatally. -/
theorem scanEntries_fatal : ∀ (es : List TarEntry) (idx : Nat),
    (∃ e ∈ es, useTarHeader e = true ∧ validateBlobs e.blobs 0 e.size = false) →
    ∃ m, scanEntries idx es = .fatal m := by
  intro es
  induction es with
  | nil =>
    intro idx h
    obtain ⟨e, he, -⟩ := h
    simp at he
  | cons e rest ih =>
    intro idx h
    obtain ⟨x, hx, hu, hv⟩ := h
    by_cases h1 : useTarHeader e = true
    · by_cases h2 : validateBlobs e.blobs 0 e.size = true
      · have hxr : x ∈ rest := by
          rcases List.mem_cons.mp hx with rfl | hr
          · rw [hv] at h2; cases h2
          · exact hr
        obtain ⟨m, hm⟩ := ih (idx + 1) ⟨x, hxr, hu, hv⟩
        refine ⟨m, ?_⟩
        simp [scanEntries, h1, h2, hm]
      · exact ⟨"Internal error: blob invariant violated", by simp [scanEntries, h1, h2]⟩
    · have hxr : x ∈ rest := by
        rcases List.mem_cons.mp hx with rfl | hr
        · rw [hu] at h1; cases h1 rfl
        · exact hr
      obtain ⟨m, hm⟩ := ih (idx + 1) ⟨x, hxr, hu, hv⟩
      refine ⟨m, ?_⟩
      simp [scanEntries, h1, hm]

/-- Claim C10 (confirmed): whenever the archive scan returns an inventory,
every file record in it satisfies the chunk invariant — its chunk sequence
starts at offset 0, is contiguous and gap-free, ends exactly at the file's
size, and every chunk is at most `maxBlobSize` long; and a violation of the
invariant on any eligible entry makes the scan abort fatally (a `fatal`
outcome, never a recoverable `err`). -/
theorem c10_chunk_coverage (stream : TarStream) :
    (∀ info, analyzeTar stream = .ok info →
      ∀ f ∈ info.files, chunkSeqCovers 0 f.blobs f.size) ∧
    ((∃ e ∈ stream.entries, useTarHeader e = true ∧ ¬ chunkSeqCovers 0 e.blobs e.size) →
      ∃ m, analyzeTar stream = .fatal m) := by
  constructor
  · intro info h f hf
    unfold analyzeTar at h
    cases hs : scanEntries 0 stream.entries with
    | fatal m => rw [hs] at h; cases h
    | err m => rw [hs] at h; cases h
    | ok files =>
      rw [hs] at h
      cases hre : stream.readErr with
      | some m => rw [hre] at h; cases h
      | none =>
        rw [hre] at h
        cases h
        have hmem : f ∈ files := mem_sortBySize.mp hf
        exact (validateBlobs_iff f.blobs 0 f.size).mp
          (scanEntries_ok_valid stream.entries 0 files hs f hmem)
  · intro h
    obtain ⟨e, he, hu, hnc⟩ := h
    have hv : validateBlobs e.blobs 0 e.size = false := by
      cases hb : validateBlobs e.blobs 0 e.size with
      | false => rfl
      | true => exact absurd ((validateBlobs_iff e.blobs 0 e.size).mp hb) hnc
    obtain ⟨m, hm⟩ := scanEntries_fatal stream.entries 0 ⟨e, he, hu, hv⟩
    exact ⟨m, by simp [analyzeTar, hm]⟩

/-- Witness for `c10_chunk_coverage` at a concrete stream. -/
theorem c10_chunk_coverage_witness :
    chunkSeqCovers 0 (mkTarFileInfo 0 (mkEntry ("out/data") [1, 2, 3])).blobs
      (mkTarFileInfo 0 (mkEntry ("out/data") [1, 2, 3])).size :=
  (c10_chunk_coverage c10Stream).1 c10Info (by decide)
    (mkTarFileInfo 0 (mkEntry ("out/data") [1, 2, 3])) (by decide)

/-- Witness for `c3_amended` at a concrete input. -/
theorem c3_amended_witness :
    nameIsSimilar c3A c3B 1 = true ↔
      stemIncludingDot c3A.basename.data = stemIncludingDot c3B.basename.data :=
  c3_amended c3A c3B

/-- A successful `findLastIdx` lookup returns an index whose element
satisfies the predicate. -/
theorem findLastIdx_some_sat {α : Type} {p : α → Bool} :
    ∀ {l : List α} {i : Nat}, findLastIdx p l = some i →
      ∃ x, l.get? i = some x ∧ p x = true := by
  intro l
  induction l with
  | nil => intro i h; simp [findLastIdx] at h
  | cons x xs ih =>
    intro i h
    unfold findLastIdx at h
    cases hr : findLastIdx p xs with
    | some k =>
      rw [hr] at h
      injection h with h1
      subst h1
      obtain ⟨y, hy, hp⟩ := ih hr
      exact ⟨y, by simpa using hy, hp⟩
    | none =>
      rw [hr] at h
      by_cases hp : p x = true
      · rw [if_pos hp] at h
        injection h with h1
        subst h1
        exact ⟨x, rfl, hp⟩
      · rw [if_neg hp] at h
        cases h

/-- The update `setOffsetAt` rewrites exactly the addressed index, field `offset`. -/
theorem get?_setOffsetAt :
    ∀ (σ : List SourceInfo) (i v k : Nat),
      (setOffsetAt σ i v).get? k =
        if k = i then (σ.get? k).map (fun s => { s with offset := v }) else σ.get? k := by
  intro σ
  induction σ with
  | nil => intro i v k; simp [setOffsetAt]
  | cons s rest ih =>
    intro i v k
    cases i with
    | zero =>
      cases k with
      | zero => simp [setOffsetAt]
      | succ k => simp [setOffsetAt]
    | succ n =>
      cases k with
      | zero => simp [setOffsetAt]
      | succ k =>
        simp only [setOffsetAt, List.get?]
        rw [ih n v k]
        by_cases hk : k = n
        · simp [hk]
        · have hks : ¬ (k + 1 = n + 1) := by omega
          simp [hk, hks]

/-- The update `setOffsetAt` does not change any record's path, so by-path
lookups are unaffected. -/
theorem findLastIdx_setOffsetAt (name : String) :
    ∀ (σ : List SourceInfo) (i v : Nat),
      findLastIdx (fun s => s.file.path == name) (setOffsetAt σ i v) =
        findLastIdx (fun s => s.file.path == name) σ := by
  intro σ
  induction σ with
  | nil => intro i v; simp [setOffsetAt]
  | cons s rest ih =>
    intro i v
    cases i with
    | zero => simp [setOffsetAt, findLastIdx]
    | succ n => simp [setOffsetAt, findLastIdx, ih n v]

/-- The update `setOffsetAt` does not change whether an entry is consumed. -/
theorem consumedEntry_setOffsetAt (σ : List SourceInfo) (i v : Nat) (e : TarEntry) :
    consumedEntry (setOffsetAt σ i v) e = consumedEntry σ e := by
  unfold consumedEntry sourceForName
  rw [findLastIdx_setOffsetAt]
  cases hf : findLastIdx (fun s => s.file.path == e.name) σ with
  | none => rfl
  | some k =>
    simp only [get?_setOffsetAt]
    by_cases hk : k = i
    · cases hg : σ.get? k <;> simp [hk, hg]
    · simp [hk]

/-- The update `setOffsetAt` does not change the total consumed size of a
stream prefix. -/
theorem consumedSizeSum_setOffsetAt (σ : List SourceInfo) (i v : Nat) :
    ∀ (pre : List TarEntry),
      consumedSizeSum (setOffsetAt σ i v) pre = consumedSizeSum σ pre := by
  intro pre
  induction pre with
  | nil => rfl
  | cons e rest ih => simp [consumedSizeSum, consumedEntry_setOffsetAt, ih]

/-- A record whose path never occurs among the remaining eligible entries
is left untouched by the extraction loop. -/
theorem extractLoop_untouched :
    ∀ (es : List TarEntry) (σ : List SourceInfo) (off : Nat) (sf : List SourceInfo)
      (out : List Nat),
      extractLoop σ es off = some (sf, out) →
      ∀ k s, σ.get? k = some s →
        (∀ e ∈ es, useTarHeader e = true → e.name ≠ s.file.path) →
        sf.get? k = some s := by
  intro es
  induction es with
  | nil =>
    intro σ off sf out h k s hk hna
    simp only [extractLoop] at h
    injection h with h1
    injection h1 with ha hb
    subst ha
    exact hk
  | cons e rest ih =>
    intro σ off sf out h k s hk hna
    have hna2 : ∀ e2 ∈ rest, useTarHeader e2 = true → e2.name ≠ s.file.path :=
      fun e2 he2 hu2 => hna e2 (List.mem_cons_of_mem e he2) hu2
    simp only [extractLoop] at h
    by_cases hu : useTarHeader e = true
    · rw [if_pos hu] at h
      split at h
      case _ => simp at h
      case _ i heqf =>
        split at h
        case _ => simp at h
        case _ si heqg =>
          by_cases hd : si.usedForDelta = true
          · rw [if_pos hd] at h
            split at h
            case _ => simp at h
            case _ sf2 out2 heqrec =>
              injection h with h1
              injection h1 with ha hb
              subst ha
              obtain ⟨x, hgx, hpx⟩ := findLastIdx_some_sat heqf
              rw [heqg] at hgx
              obtain rfl : si = x := by simpa using hgx
              have hxpath : si.file.path = e.name := by simpa using hpx
              have hne : k ≠ i := by
                intro hki
                subst hki
                rw [hk] at heqg
                obtain rfl : s = si := by simpa using heqg
                exact hna e (List.mem_cons_self e rest) hu hxpath.symm
              have hk2 : (setOffsetAt σ i off).get? k = some s := by
                rw [get?_setOffsetAt, if_neg hne]
                exact hk
              exact ih _ _ _ _ heqrec k s hk2 hna2
          · rw [if_neg hd] at h
            exact ih σ off sf out h k s hk hna2
    · rw [if_neg hu] at h
      exact ih σ off sf out h k s hk hna2

/-- Full characterization of the extraction loop on a stream whose eligible
entries have pairwise-distinct names: the scratch output is exactly the
concatenated contents of the consumed entries in stream order, and every
consumed entry's record ends carrying the offset `off` plus the total size
of the consumed entries before it. -/
theorem extractLoop_spec :
    ∀ (es : List TarEntry) (σ : List SourceInfo) (off : Nat) (sf : List SourceInfo)
      (out : List Nat),
      extractLoop σ es off = some (sf, out) →
      List.Pairwise (fun a b => a.name ≠ b.name) (es.filter (fun e => useTarHeader e)) →
      (out = ((es.filter (fun e => consumedEntry σ e)).map (fun e => e.content)).flatten) ∧
      (∀ pre e post, es = pre ++ e :: post → consumedEntry σ e = true →
        ∃ i s, findLastIdx (fun s2 => s2.file.path == e.name) σ = some i ∧
          sf.get? i = some s ∧ s.usedForDelta = true ∧
          s.offset = off + consumedSizeSum σ pre) := by
  intro es
  induction es with
  | nil =>
    intro σ off sf out h hp
    simp only [extractLoop] at h
    injection h with h1
    injection h1 with ha hb
    subst ha
    subst hb
    constructor
    · simp
    · intro pre e post hsplit
      cases pre <;> simp at hsplit
  | cons e rest ih =>
    intro σ off sf out h hp
    simp only [extractLoop] at h
    by_cases hu : useTarHeader e = true
    · rw [if_pos hu] at h
      have hpc : List.Pairwise (fun a b => a.name ≠ b.name)
          (e :: rest.filter (fun e => useTarHeader e)) := by
        rw [← List.filter_cons_of_pos (by simpa using hu)]
        exact hp
      have hhead : ∀ y ∈ rest.filter (fun e => useTarHeader e), e.name ≠ y.name :=
        (List.pairwise_cons.mp hpc).1
      have hp2 : List.Pairwise (fun a b => a.name ≠ b.name)
          (rest.filter (fun e => useTarHeader e)) := (List.pairwise_cons.mp hpc).2
      split at h
      case _ => simp at h
      case _ i heqf =>
        split at h
        case _ => simp at h
        case _ si heqg =>
          obtain ⟨x, hgx, hpx⟩ := findLastIdx_some_sat heqf
          rw [heqg] at hgx
          obtain rfl : si = x := by simpa using hgx
          have hxpath : si.file.path = e.name := by simpa using hpx
          by_cases hd : si.usedForDelta = true
          · rw [if_pos hd] at h
            split at h
            case _ => simp at h
            case _ sf2 out2 heqrec =>
              injection h with h1
              injection h1 with ha hb
              subst ha
              subst hb
              have heqg2 : σ[i]? = some si := by
                simpa [List.get?_eq_getElem?] using heqg
              have hce : consumedEntry σ e = true := by
                simp [consumedEntry, sourceForName, heqf, heqg, heqg2, hd, hu]
              have hfeq : rest.filter (fun x => consumedEntry (setOffsetAt σ i off) x) =
                  rest.filter (fun x => consumedEntry σ x) :=
                List.filter_congr' (fun x _ => consumedEntry_setOffsetAt σ i off x)
              obtain ⟨iha, ihb⟩ := ih (setOffsetAt σ i off) (off + e.size) sf2 out2 heqrec hp2
              constructor
              · rw [iha, hfeq]
                simp [List.filter_cons, hce]
              · intro pre e2 post hsplit hce2
                cases pre with
                | nil =>
                  simp only [List.nil_append] at hsplit
                  injection hsplit with hee hrest2
                  subst hee
                  subst hrest2
                  refine ⟨i, { si with offset := off }, heqf, ?_, by simpa using hd,
                    by simp [consumedSizeSum]⟩
                  refine extractLoop_untouched rest (setOffsetAt σ i off) (off + e.size)
                    sf2 out2 heqrec i { si with offset := off } ?_ ?_
                  · rw [get?_setOffsetAt, if_pos rfl, heqg]
                    rfl
                  · intro e3 he3 hu3
                    have : e3 ∈ rest.filter (fun e => useTarHeader e) :=
                      List.mem_filter.mpr ⟨he3, by simpa using hu3⟩
                    have hne := hhead e3 this
                    show e3.name ≠ si.file.path
                    rw [hxpath]
                    exact fun hcontra => hne hcontra.symm
                | cons y pre2 =>
                  injection hsplit with hey hrest2
                  subst hey
                  have hce3 : consumedEntry (setOffsetAt σ i off) e2 = true := by
                    rw [consumedEntry_setOffsetAt]
                    exact hce2
                  obtain ⟨i2, s2, hfi2, hgi2, hdi2, hoff2⟩ := ihb pre2 e2 post hrest2 hce3
                  refine ⟨i2, s2, ?_, hgi2, hdi2, ?_⟩
                  · rw [← findLastIdx_setOffsetAt e2.name σ i off]
                    exact hfi2
                  · rw [consumedSizeSum_setOffsetAt] at hoff2
                    have hsum : consumedSizeSum σ (e :: pre2) =
                        e.size + consumedSizeSum σ pre2 := by
                      simp [consumedSizeSum, hce]
                    rw [hsum]
                    omega
          · rw [if_neg hd] at h
            have hdf : si.usedForDelta = false := by simpa using hd
            have heqg2 : σ[i]? = some si := by
              simpa [List.get?_eq_getElem?] using heqg
            have hce : consumedEntry σ e = false := by
              simp [consumedEntry, sourceForName, heqf, heqg, heqg2, hdf]
            obtain ⟨iha, ihb⟩ := ih σ off sf out h hp2
            constructor
            · rw [iha]
              simp [List.filter_cons, hce]
            · intro pre e2 post hsplit hce2
              cases pre with
              | nil =>
                simp only [List.nil_append] at hsplit
                injection hsplit with hee hrest2
                subst hee
                rw [hce2] at hce
                cases hce
              | cons y pre2 =>
                injection hsplit with hey hrest2
                subst hey
                obtain ⟨i2, s2, hfi2, hgi2, hdi2, hoff2⟩ := ihb pre2 e2 post hrest2 hce2
                refine ⟨i2, s2, hfi2, hgi2, hdi2, ?_⟩
                have hsum : consumedSizeSum σ (e :: pre2) = consumedSizeSum σ pre2 := by
                  simp [consumedSizeSum, hce]
                rw [hsum]
                exact hoff2
    · rw [if_neg hu] at h
      have huf : useTarHeader e = false := by simpa using hu
      have hp2 : List.Pairwise (fun a b => a.name ≠ b.name)
          (rest.filter (fun e => useTarHeader e)) := by
        have hfc : (e :: rest).filter (fun e => useTarHeader e) =
            rest.filter (fun e => useTarHeader e) := by
          simp [List.filter_cons, huf]
        rw [← hfc]
        exact hp
      have hce : consumedEntry σ e = false := by simp [consumedEntry, huf]
      obtain ⟨iha, ihb⟩ := ih σ off sf out h hp2
      constructor
      · rw [iha]
        simp [List.filter_cons, hce]
      · intro pre e2 post hsplit hce2
        cases pre with
        | nil =>
          simp only [List.nil_append] at hsplit
          injection hsplit with hee hrest2
          subst hee
          rw [hce2] at hce
          cases hce
        | cons y pre2 =>
          injection hsplit with hey hrest2
          subst hey
          obtain ⟨i2, s2, hfi2, hgi2, hdi2, hoff2⟩ := ihb pre2 e2 post hrest2 hce2
          refine ⟨i2, s2, hfi2, hgi2, hdi2, ?_⟩
          have hsum : consumedSizeSum σ (e :: pre2) = consumedSizeSum σ pre2 := by
            simp [consumedSizeSum, hce]
          rw [hsum]
          exact hoff2

/-- On a stream whose eligible entries' contents match their declared
sizes, the scratch bytes contributed by a prefix have total length equal to
the prefix's consumed size. -/
theorem consumedSizeSum_eq_length (σ : List SourceInfo) :
    ∀ (pre : List TarEntry),
      (∀ e ∈ pre, useTarHeader e = true → e.content.length = e.size) →
      ((pre.filter (fun e => consumedEntry σ e)).map (fun e => e.content)).flatten.length =
        consumedSizeSum σ pre := by
  intro pre
  induction pre with
  | nil => intro h; simp [consumedSizeSum]
  | cons x rest ih =>
    intro h
    have hrest : ∀ e ∈ rest, useTarHeader e = true → e.content.length = e.size :=
      fun e2 he2 hu2 => h e2 (List.mem_cons_of_mem x he2) hu2
    by_cases hcx : consumedEntry σ x = true
    · have hux : useTarHeader x = true := by
        unfold consumedEntry at hcx
        exact Bool.and_elim_left hcx
      have hlenx := h x (List.mem_cons_self x rest) hux
      simp [List.filter_cons, hcx, consumedSizeSum, ih hrest, hlenx]
    · have hcf : consumedEntry σ x = false := by simpa using hcx
      simp [List.filter_cons, hcf, consumedSizeSum, ih hrest]

/-- Claim C7 (confirmed, under well-formedness of the input): when the old
stream's eligible entries have pairwise-distinct names and each eligible
entry's byte content has its declared size (both guaranteed by the tar
format), a successful extraction pass produces a scratch store that is
exactly the concatenation of the consumed entries' bytes in stream order
(entries not consumed contribute nothing), and every consumed entry's
record carries offset equal to the total size of consumed entries earlier
in the stream, with the scratch bytes at that offset being exactly that
entry's content (two targets sharing the record share the offset, since
the record is one arena cell). -/
theorem c7_scratch_copy_once (entries : List TarEntry) (sources : List SourceInfo)
    (sf : List SourceInfo) (out : List Nat)
    (hrun : extractLoop sources entries 0 = some (sf, out))
    (hnames : List.Pairwise (fun a b => a.name ≠ b.name)
      (entries.filter (fun e => useTarHeader e)))
    (hlen : ∀ e ∈ entries, useTarHeader e = true → e.content.length = e.size) :
    out = ((entries.filter (fun e => consumedEntry sources e)).map (fun e => e.content)).flatten ∧
    (∀ pre e post, entries = pre ++ e :: post → consumedEntry sources e = true →
      ∃ i s, findLastIdx (fun s2 => s2.file.path == e.name) sources = some i ∧
        sf.get? i = some s ∧ s.usedForDelta = true ∧
        s.offset = consumedSizeSum sources pre ∧
        (out.drop s.offset).take e.size = e.content) := by
  obtain ⟨ha, hb⟩ := extractLoop_spec entries sources 0 sf out hrun hnames
  refine ⟨ha, ?_⟩
  intro pre e post hsplit hce
  obtain ⟨i, s, hfi, hgi, hdi, hoff⟩ := hb pre e post hsplit hce
  have hoff0 : s.offset = consumedSizeSum sources pre := by omega
  refine ⟨i, s, hfi, hgi, hdi, hoff0, ?_⟩
  have hue : useTarHeader e = true := by
    unfold consumedEntry at hce
    exact Bool.and_elim_left hce
  have hel : e.content.length = e.size := by
    refine hlen e ?_ hue
    rw [hsplit]
    simp
  have hlenA :
      ((pre.filter (fun e => consumedEntry sources e)).map (fun e => e.content)).flatten.length =
        consumedSizeSum sources pre := by
    refine consumedSizeSum_eq_length sources pre ?_
    intro e2 he2 hu2
    refine hlen e2 ?_ hu2
    rw [hsplit]
    exact List.mem_append.mpr (Or.inl he2)
  rw [hoff0, ha, hsplit, List.filter_append, List.map_append, List.flatten_append]
  have hfc : (e :: post).filter (fun e => consumedEntry sources e) =
      e :: post.filter (fun e => consumedEntry sources e) := by
    simp [List.filter_cons, hce]
  rw [hfc, List.map_cons, List.flatten_cons, ← hlenA, List.drop_left, ← hel, List.take_left]

/-- Witness for `c7_scratch_copy_once` at a concrete stream and arena. -/
theorem c7_scratch_copy_once_witness :
    ([10, 11] : List Nat) =
      ((c7Entries.filter (fun e => consumedEntry c7Sources e)).map
        (fun e => e.content)).flatten :=
  (c7_scratch_copy_once c7Entries c7Sources
    [⟨mkFile 0 ("a") 2 ("sa") true, true, 0⟩, ⟨mkFile 1 ("b") 3 ("sb") true, false, 0⟩] [10, 11]
    (by decide) (by decide) (by decide)).1
